import Mathlib

/-!
Verification of the color-extraction and clustering core of the
video-color-kmeans repository (src/color.rs, src/video.rs, src/main.rs),
as a shallow embedding in Lean.

External collaborators (the opencv resize / BGR-to-RGB conversion, the
video decoder, and the kmeans crate) are not code of this repository;
they enter the embedding as data: a frame is represented by the pixel
sequence of its resized RGB image, the video capture by the list of
outcomes of successive capture.read calls, and the kmeans result by its
assignments and centroids lists, constrained by the crate's contract
(one assignment per sample, each below the cluster count) where a claim
needs it.  Rust f32/f64 arithmetic is modelled by exact rational
arithmetic.
-/

/-- Color from src/color.rs: a wrapper around Srgb with u8 channels;
equality and hashing are structural over the three channels.  Channels
are modelled as naturals (the u8 range is respected by every operation
the claims touch). -/
structure Color where
  red : Nat
  green : Nat
  blue : Nat
deriving DecidableEq, Repr

/-- ColorCluster from src/color.rs: a centroid color plus the list of
(color, count) pairs of the input ranking assigned to that cluster. -/
structure ColorCluster where
  centroid : Color
  assignments : List (Color × Nat)
deriving DecidableEq, Repr

/-- Fixed near-white exclusion bound, the literal 250 in
extract_colors_from_frame (a constant of the algorithm). -/
def white_threshold : Nat := 250

/-- Fixed near-black exclusion bound, the literal 5 in
extract_colors_from_frame (a constant of the algorithm). -/
def black_threshold : Nat := 5

/-- Value channel of the palette Hsv conversion of a color whose u8
channels were reformatted to floats in [0,1]: the maximum channel, that
is max(r,g,b)/255.  Written with mkRat so that it evaluates in the
kernel; hsv_value_eq_div below proves it equal to the division form. -/
def hsv_value (c : Color) : ℚ :=
  mkRat (max c.red (max c.green c.blue)) 255

/-- Saturation channel of the palette Hsv conversion: chroma divided by
value, and 0 for black (value 0).  On channels scaled by 1/255 the
factor cancels, leaving (max − min)/max over the raw channels;
hsv_saturation_eq_div below proves this equal to the division form on
the normalized channels. -/
def hsv_saturation (c : Color) : ℚ :=
  let mx := max c.red (max c.green c.blue)
  let mn := min c.red (min c.green c.blue)
  if mx = 0 then 0 else mkRat (mx - mn) mx

/-- Body of the per-pixel loop of extract_colors_from_frame: a pixel is
skipped when all three channels are at least the fixed white threshold
or all three are at most the fixed black threshold; otherwise it is kept
exactly when its Hsv saturation and value reach the caller's
thresholds. -/
def keep_pixel (saturation_threshold luminance_threshold : ℚ) (c : Color) : Bool :=
  if (white_threshold ≤ c.red ∧ white_threshold ≤ c.green ∧ white_threshold ≤ c.blue)
      ∨ (c.red ≤ black_threshold ∧ c.green ≤ black_threshold ∧ c.blue ≤ black_threshold) then
    false
  else
    decide (saturation_threshold ≤ hsv_saturation c ∧ luminance_threshold ≤ hsv_value c)

/-- extract_colors_from_frame from src/color.rs.  The opencv resize (to
resize_height, aspect preserved, INTER_AREA) and the BGR-to-RGB
conversion are external; the frame argument is the RGB pixel sequence of
the already resized frame, so resize_height is carried only for
signature fidelity.  The function filters the pixels by the fixed
white/black exclusion bands and the caller's saturation and luminance
thresholds. -/
def extract_colors_from_frame (frame : List Color) (resize_height : Int)
    (saturation_threshold luminance_threshold : ℚ) : List Color :=
  let _ := resize_height
  frame.filter (keep_pixel saturation_threshold luminance_threshold)

/-- Outcome of one capture.read call of the opencv VideoCapture, as seen
by VideoFrameIterator::next in src/video.rs: Ok(true) delivers a frame
(given here as its resized RGB pixel list), Ok(false) delivers nothing —
opencv reports end of stream and a frame that fails to decode the same
way, and next returns None in both cases.  A Rust Err from read would
make the .unwrap() in next panic, so no returned-error path exists
either; the embedding therefore covers the two Ok outcomes. -/
inductive ReadResult where
  | frame (pixels : List Color)
  | failure
deriving DecidableEq, Repr

/-- Frames produced by iterating VideoFrameIterator (src/video.rs) to
exhaustion: next returns None once frame_number reaches end_frame, and
also as soon as capture.read yields false (end of stream or a frame that
fails to decode); otherwise it yields the frame and increments
frame_number. -/
def run_frame_iterator (reads : List ReadResult) (end_frame frame_number : Nat) :
    List (List Color) :=
  match reads with
  | [] => []
  | .failure :: _ => []
  | .frame p :: rest =>
    if frame_number < end_frame then
      p :: run_frame_iterator rest end_frame (frame_number + 1)
    else []

/-- One step of the counting loop of extract_color_ranking_from_video:
color_counts.entry(color).or_insert(0) += 1, on the association-list
model of the HashMap. -/
def bump (m : List (Color × Nat)) (c : Color) : List (Color × Nat) :=
  match m with
  | [] => [(c, 1)]
  | (k, v) :: rest => if k = c then (k, v + 1) :: rest else (k, v) :: bump rest c

/-- Insertion of one pair into a list already sorted by descending
count: the new pair goes before the first strictly smaller count and
after equal counts, which is exactly where the stable sort_by of the
Rust code places it under the comparator b.1.cmp(&a.1). -/
def insert_by_count (x : Color × Nat) : List (Color × Nat) → List (Color × Nat)
  | [] => [x]
  | y :: rest => if y.2 < x.2 then x :: y :: rest else y :: insert_by_count x rest

/-- color_ranking.sort_by with comparator b.1.cmp(&a.1): the stable sort
of the pairs by descending count.  A stable sort under a fixed
comparator is a unique function of its input, so the structural
insertion sort below computes the same list as the Rust sort. -/
def sort_by_count_descending (l : List (Color × Nat)) : List (Color × Nat) :=
  l.foldl (fun acc x => insert_by_count x acc) []

/-- extract_color_ranking_from_video from src/color.rs.  It folds every
frame delivered by the iterator through extract_colors_from_frame and
the per-color count bump, then sorts the accumulated (color, count)
pairs by descending count.  The progress bar is presentation only.  The
Rust return type is a Result but the body ends in Ok unconditionally, so
the embedding returns the ranking directly. -/
def extract_color_ranking_from_video (reads : List ReadResult)
    (end_frame frame_number : Nat) (resize_height : Int)
    (saturation_threshold luminance_threshold : ℚ) : List (Color × Nat) :=
  let frames := run_frame_iterator reads end_frame frame_number
  let color_counts := frames.foldl
    (fun m pixels =>
      (extract_colors_from_frame pixels resize_height
          saturation_threshold luminance_threshold).foldl bump m)
    []
  sort_by_count_descending color_counts

/-- Normalized f64 representation of a color built in
create_color_clusters: each u8 channel reformatted to [0,1]. -/
def color_to_f64 (c : Color) : List ℚ :=
  [(c.red : ℚ) / 255, (c.green : ℚ) / 255, (c.blue : ℚ) / 255]

/-- total_samples of create_color_clusters: the sum of the counts of the
ranking, which is the number of weighted samples handed to kmeans. -/
def total_samples (color_ranking : List (Color × Nat)) : Nat :=
  (color_ranking.map (fun p => p.2)).sum

/-- Flat sample buffer built by create_color_clusters and passed to
KMeans::new: each color's normalized three-channel representation
repeated once per unit of its count. -/
def kmeans_data (color_ranking : List (Color × Nat)) : List ℚ :=
  color_ranking.flatMap (fun p => (List.replicate p.2 (color_to_f64 p.1)).flatten)

/-- Push of one (color, count) pair onto assignments[cluster_idx] in
create_color_clusters.  When the index is out of range the Rust
indexing panics; the embedding leaves the buckets unchanged there, and
every theorem touching that path carries the kmeans contract that rules
it out. -/
def push_assignment (buckets : List (List (Color × Nat))) (i : Nat)
    (x : Color × Nat) : List (List (Color × Nat)) :=
  buckets.set i (buckets.getD i [] ++ [x])

/-- Assignment loop of create_color_clusters: walk the input ranking in
order and, for each distinct (color, count) pair, take the NEXT element
of the kmeans per-sample assignment sequence (one element per pair, not
per sample) and push the pair onto that cluster's bucket; when the
assignment sequence is exhausted the pair is silently dropped. -/
def assign_loop (color_ranking : List (Color × Nat)) (asg : List Nat)
    (buckets : List (List (Color × Nat))) : List (List (Color × Nat)) :=
  match color_ranking, asg with
  | [], _ => buckets
  | _ :: rest, [] => assign_loop rest [] buckets
  | (c, n) :: rest, i :: irest => assign_loop rest irest (push_assignment buckets i (c, n))

/-- chunks(3) of the flat centroid buffer, as in the Rust slice
iterator: successive chunks of three, a final shorter chunk when the
length is not a multiple of three. -/
def chunks3 (l : List ℚ) : List (List ℚ) :=
  match l with
  | a :: b :: c :: rest => [a, b, c] :: chunks3 rest
  | [] => []
  | l => [l]

/-- Conversion of one normalized centroid channel back to a u8: scale by
255, clamp to [0, 255], then truncate as the Rust as-cast does (floor,
since the clamped value is nonnegative).  The scaling is written with
mkRat so that it evaluates in the kernel; centroid_channel_eq_mul below
proves the mkRat expression equal to x * 255. -/
def centroid_channel (x : ℚ) : Nat :=
  (max 0 (min (mkRat (x.num * 255) x.den) 255)).floor.toNat

/-- Conversion of one three-channel centroid chunk to a Color.  A chunk
shorter than three channels would panic in Rust on chunk[1]; the
embedding reads missing channels as 0, and the centroid-length contract
in the theorems keeps chunks full. -/
def centroid_of_chunk (chunk : List ℚ) : Color :=
  { red := centroid_channel (chunk.getD 0 0)
  , green := centroid_channel (chunk.getD 1 0)
  , blue := centroid_channel (chunk.getD 2 0) }

/-- create_color_clusters from src/color.rs.  The kmeans crate is
external: kmAssignments models result.assignments (by contract one
cluster index per weighted sample, each below num_clusters) and
kmCentroids models result.centroids (a flat buffer of num_clusters
normalized three-channel centroids).  The repository code embedded here
is the sample-buffer construction, the assignment loop over the ranking,
the centroid back-conversion, and the zip into ColorCluster values. -/
def create_color_clusters (color_ranking : List (Color × Nat)) (num_clusters : Nat)
    (kmAssignments : List Nat) (kmCentroids : List ℚ) : List ColorCluster :=
  let buckets := assign_loop color_ranking kmAssignments (List.replicate num_clusters [])
  let centroids := (chunks3 kmCentroids).map centroid_of_chunk
  List.zipWith (fun cen b => ColorCluster.mk cen b) centroids buckets

/-- Pipeline of main (src/main.rs) after argument parsing and video
opening: extract the color ranking from the video, then cluster it.
main performs no validation of resize_height or color_clusters — both
flow straight into the pipeline. -/
def main_pipeline (reads : List ReadResult) (end_frame frame_number : Nat)
    (resize_height : Int) (saturation luminance : ℚ) (color_clusters : Nat)
    (kmAssignments : List Nat) (kmCentroids : List ℚ) :
    List (Color × Nat) × List ColorCluster :=
  let color_ranking := extract_color_ranking_from_video reads end_frame frame_number
    resize_height saturation luminance
  (color_ranking,
    create_color_clusters color_ranking color_clusters kmAssignments kmCentroids)

/-! Concrete colors used in evaluation theorems and witnesses: the pure
red, blue and white of the specification's synthetic-frame scenario. -/

/-- Pure red (255, 0, 0). -/
def pureRed : Color := ⟨255, 0, 0⟩

/-- Pure blue (0, 0, 255). -/
def pureBlue : Color := ⟨0, 0, 255⟩

/-- Pure white (255, 255, 255). -/
def pureWhite : Color := ⟨255, 255, 255⟩

/-- Faithfulness of the mkRat form of hsv_value to the palette formula:
it is the maximum of the three channels each divided by 255. -/
theorem hsv_value_eq_div (c : Color) :
    hsv_value c
      = max ((c.red : ℚ) / 255) (max ((c.green : ℚ) / 255) ((c.blue : ℚ) / 255)) := by
  unfold hsv_value
  rw [Rat.mkRat_eq_div]
  push_cast [Nat.cast_max]
  rw [max_div_div_right (by norm_num : (0:ℚ) ≤ 255),
    max_div_div_right (by norm_num : (0:ℚ) ≤ 255)]

/-- Faithfulness of the mkRat form of hsv_saturation to the palette
formula: chroma over value on the channels divided by 255, and 0 when
the value is 0. -/
theorem hsv_saturation_eq_div (c : Color) :
    hsv_saturation c
      = (if hsv_value c = 0 then 0 else
          (hsv_value c
              - min ((c.red : ℚ) / 255) (min ((c.green : ℚ) / 255) ((c.blue : ℚ) / 255)))
            / hsv_value c) := by
  have hvq : hsv_value c = ((max c.red (max c.green c.blue) : ℕ) : ℚ) / 255 := by
    unfold hsv_value; rw [Rat.mkRat_eq_div]; push_cast; ring
  have hmq : min ((c.red : ℚ) / 255) (min ((c.green : ℚ) / 255) ((c.blue : ℚ) / 255))
      = ((min c.red (min c.green c.blue) : ℕ) : ℚ) / 255 := by
    rw [min_div_div_right (by norm_num : (0:ℚ) ≤ 255),
      min_div_div_right (by norm_num : (0:ℚ) ≤ 255)]
    push_cast [Nat.cast_min]
    ring
  have hmnle : min c.red (min c.green c.blue) ≤ max c.red (max c.green c.blue) :=
    le_trans (min_le_left _ _) (le_max_left _ _)
  unfold hsv_saturation
  by_cases h0 : max c.red (max c.green c.blue) = 0
  · have : hsv_value c = 0 := by rw [hvq, h0]; norm_num
    simp [h0, this]
  · have hq : ((max c.red (max c.green c.blue) : ℕ) : ℚ) ≠ 0 := by exact_mod_cast h0
    have hv0 : hsv_value c ≠ 0 := by
      rw [hvq]
      exact div_ne_zero hq (by norm_num)
    simp only [if_neg h0, if_neg hv0]
    rw [hvq, hmq, Rat.mkRat_eq_div]
    push_cast [hmnle]
    field_simp

/-- Faithfulness of the mkRat form inside centroid_channel: the scaled
channel mkRat (x.num * 255) x.den is exactly x * 255. -/
theorem centroid_channel_eq_mul (x : ℚ) :
    centroid_channel x = (max 0 (min (x * 255) 255)).floor.toNat := by
  have hscale : mkRat (x.num * 255) x.den = x * 255 := by
    conv_rhs => rw [← Rat.mkRat_self x]
    rw [show (255 : ℚ) = mkRat 255 1 from rfl]
    rw [Rat.mkRat_mul_mkRat]
    simp
  unfold centroid_channel
  rw [hscale]

/-- Characterization of the per-pixel filter: a pixel is kept exactly
when it avoids both exclusion bands and meets both caller thresholds. -/
theorem keep_pixel_iff (s v : ℚ) (c : Color) :
    keep_pixel s v c = true ↔
      (¬ ((white_threshold ≤ c.red ∧ white_threshold ≤ c.green ∧ white_threshold ≤ c.blue)
          ∨ (c.red ≤ black_threshold ∧ c.green ≤ black_threshold ∧ c.blue ≤ black_threshold)))
        ∧ s ≤ hsv_saturation c ∧ v ≤ hsv_value c := by
  unfold keep_pixel
  split
  · simp_all
  · simp_all

/-- C5: extract_colors_from_frame never outputs a color with all three
channels at or above the fixed near-white bound, nor one with all three
at or below the fixed near-black bound, whatever the caller's saturation
and luminance thresholds are; the two bounds are the constants
white_threshold and black_threshold of the algorithm, not parameters of
the call. -/
theorem extract_colors_from_frame_respects_exclusion_bands
    (frame : List Color) (resize_height : Int) (s v : ℚ) (c : Color)
    (hc : c ∈ extract_colors_from_frame frame resize_height s v) :
    ¬ (white_threshold ≤ c.red ∧ white_threshold ≤ c.green ∧ white_threshold ≤ c.blue)
      ∧ ¬ (c.red ≤ black_threshold ∧ c.green ≤ black_threshold ∧ c.blue ≤ black_threshold) := by
  have hkeep : keep_pixel s v c = true := (List.mem_filter.mp hc).2
  have h := (keep_pixel_iff s v c).mp hkeep
  exact ⟨fun hwhite => h.1 (Or.inl hwhite), fun hblack => h.1 (Or.inr hblack)⟩

/-- Witness for C5 at a concrete frame: pure red survives the filter of
the four-pixel scenario frame and is outside both exclusion bands. -/
theorem extract_colors_from_frame_respects_exclusion_bands_witness :
    pureRed ∈ extract_colors_from_frame [pureRed, pureRed, pureBlue, pureWhite] 12 0 0
      ∧ (¬ (white_threshold ≤ pureRed.red ∧ white_threshold ≤ pureRed.green
            ∧ white_threshold ≤ pureRed.blue)
        ∧ ¬ (pureRed.red ≤ black_threshold ∧ pureRed.green ≤ black_threshold
            ∧ pureRed.blue ≤ black_threshold)) :=
  ⟨by decide,
    extract_colors_from_frame_respects_exclusion_bands
      [pureRed, pureRed, pureBlue, pureWhite] 12 0 0 pureRed (by decide)⟩

/-- C6: every color kept by extract_colors_from_frame has, under the
saturation/value conversion of the pixel, saturation at least the
caller's saturation threshold and value at least the caller's luminance
threshold. -/
theorem extract_colors_from_frame_meets_thresholds
    (frame : List Color) (resize_height : Int) (s v : ℚ) (c : Color)
    (hc : c ∈ extract_colors_from_frame frame resize_height s v) :
    s ≤ hsv_saturation c ∧ v ≤ hsv_value c := by
  have hkeep : keep_pixel s v c = true := (List.mem_filter.mp hc).2
  exact ((keep_pixel_iff s v c).mp hkeep).2

/-- Witness for C6 at a concrete frame and nonzero thresholds: pure blue
passes thresholds of one half and its conversion meets them. -/
theorem extract_colors_from_frame_meets_thresholds_witness :
    pureBlue ∈ extract_colors_from_frame [pureRed, pureBlue, pureWhite] 12 (mkRat 1 2) (mkRat 1 2)
      ∧ mkRat 1 2 ≤ hsv_saturation pureBlue ∧ mkRat 1 2 ≤ hsv_value pureBlue :=
  ⟨by decide,
    extract_colors_from_frame_meets_thresholds
      [pureRed, pureBlue, pureWhite] 12 (mkRat 1 2) (mkRat 1 2) pureBlue (by decide)⟩

/-- One bump adds exactly one to the total of the counts. -/
theorem bump_sum (m : List (Color × Nat)) (c : Color) :
    ((bump m c).map (fun p => p.2)).sum = ((m.map (fun p => p.2)).sum) + 1 := by
  induction m with
  | nil => simp [bump]
  | cons hd tl ih =>
    obtain ⟨k, v⟩ := hd
    by_cases h : k = c
    · simp [bump, h]
      omega
    · simp [bump, h, ih]
      omega

/-- Keys after a bump: unchanged when the color is already a key, the
color appended otherwise. -/
theorem bump_keys (m : List (Color × Nat)) (c : Color) :
    (bump m c).map (fun p => p.1)
      = if c ∈ m.map (fun p => p.1) then m.map (fun p => p.1)
        else m.map (fun p => p.1) ++ [c] := by
  induction m with
  | nil => simp [bump]
  | cons hd tl ih =>
    obtain ⟨k, v⟩ := hd
    by_cases h : k = c
    · simp [bump, h]
    · have hne : ¬ c = k := fun hc => h hc.symm
      by_cases hmem : c ∈ tl.map (fun p => p.1)
      · simp [bump, h, ih, hmem, hne]
      · simp [bump, h, ih, hmem, hne]

/-- A bump keeps the key list duplicate-free. -/
theorem bump_nodup (m : List (Color × Nat)) (c : Color)
    (h : (m.map (fun p => p.1)).Nodup) : ((bump m c).map (fun p => p.1)).Nodup := by
  rw [bump_keys]
  by_cases hmem : c ∈ m.map (fun p => p.1)
  · simpa [hmem] using h
  · simp only [hmem, if_false]
    simp [List.nodup_append, h, hmem]

/-- A bump keeps every count at least one. -/
theorem bump_counts_pos (m : List (Color × Nat)) (c : Color)
    (h : ∀ p ∈ m, 1 ≤ p.2) : ∀ p ∈ bump m c, 1 ≤ p.2 := by
  induction m with
  | nil =>
    intro p hp
    simp [bump] at hp
    simp [hp]
  | cons hd tl ih =>
    obtain ⟨k, v⟩ := hd
    intro p hp
    by_cases hk : k = c
    · simp [bump, hk] at hp
      rcases hp with hp | hp
      · simp [hp]
      · exact h p (List.mem_cons_of_mem _ hp)
    · simp [bump, hk] at hp
      rcases hp with hp | hp
      · exact h p (by simp [hp])
      · exact ih (fun q hq => h q (List.mem_cons_of_mem _ hq)) p hp

/-- Folding a list of colors through bump adds the list's length to the
total of the counts. -/
theorem foldl_bump_sum (colors : List Color) :
    ∀ m : List (Color × Nat),
      ((colors.foldl bump m).map (fun p => p.2)).sum
        = ((m.map (fun p => p.2)).sum) + colors.length := by
  induction colors with
  | nil => intro m; simp
  | cons c rest ih =>
    intro m
    simp only [List.foldl_cons, List.length_cons]
    rw [ih (bump m c), bump_sum]
    omega

/-- Folding a list of colors through bump keeps the key list
duplicate-free. -/
theorem foldl_bump_nodup (colors : List Color) :
    ∀ m : List (Color × Nat), (m.map (fun p => p.1)).Nodup →
      ((colors.foldl bump m).map (fun p => p.1)).Nodup := by
  induction colors with
  | nil => intro m h; simpa using h
  | cons c rest ih =>
    intro m h
    exact ih (bump m c) (bump_nodup m c h)

/-- Folding a list of colors through bump keeps every count at least
one. -/
theorem foldl_bump_counts_pos (colors : List Color) :
    ∀ m : List (Color × Nat), (∀ p ∈ m, 1 ≤ p.2) →
      ∀ p ∈ colors.foldl bump m, 1 ≤ p.2 := by
  induction colors with
  | nil => intro m h; simpa using h
  | cons c rest ih =>
    intro m h
    exact ih (bump m c) (bump_counts_pos m c h)

/-- Inserting a pair is a permutation of consing it. -/
theorem insert_by_count_perm (x : Color × Nat) (l : List (Color × Nat)) :
    (insert_by_count x l).Perm (x :: l) := by
  induction l with
  | nil => simp [insert_by_count]
  | cons y rest ih =>
    by_cases h : y.2 < x.2
    · simp [insert_by_count, h]
    · simp only [insert_by_count, if_neg h]
      exact (ih.cons y).trans (List.Perm.swap x y rest)

/-- The stable insertion sort permutes its input. -/
theorem sort_by_count_descending_perm (l : List (Color × Nat)) :
    (sort_by_count_descending l).Perm l := by
  have key : ∀ (l acc : List (Color × Nat)),
      (l.foldl (fun acc x => insert_by_count x acc) acc).Perm (l ++ acc) := by
    intro l
    induction l with
    | nil => intro acc; simp
    | cons x tl ih =>
      intro acc
      simp only [List.foldl_cons, List.cons_append]
      refine ((ih (insert_by_count x acc)).trans ?_)
      refine (List.Perm.append_left tl (insert_by_count_perm x acc)).trans ?_
      exact List.perm_middle
  simpa using key l []

/-- Inserting into a list sorted by descending count keeps it sorted. -/
theorem insert_by_count_sorted (x : Color × Nat) (l : List (Color × Nat))
    (h : l.Pairwise (fun a b => b.2 ≤ a.2)) :
    (insert_by_count x l).Pairwise (fun a b => b.2 ≤ a.2) := by
  induction l with
  | nil => simp [insert_by_count]
  | cons y rest ih =>
    rcases List.pairwise_cons.mp h with ⟨hy, hrest⟩
    by_cases hlt : y.2 < x.2
    · simp only [insert_by_count, if_pos hlt]
      refine List.pairwise_cons.mpr ⟨?_, h⟩
      intro b hb
      rcases List.mem_cons.mp hb with hb | hb
      · subst hb
        omega
      · have := hy b hb
        omega
    · simp only [insert_by_count, if_neg hlt]
      refine List.pairwise_cons.mpr ⟨?_, ih hrest⟩
      intro b hb
      have hb' : b ∈ x :: rest := ((insert_by_count_perm x rest).mem_iff).mp hb
      rcases List.mem_cons.mp hb' with hb' | hb'
      · subst hb'
        omega
      · exact hy b hb'

/-- The stable insertion sort produces a list sorted by descending
count. -/
theorem sort_by_count_descending_sorted (l : List (Color × Nat)) :
    (sort_by_count_descending l).Pairwise (fun a b => b.2 ≤ a.2) := by
  have key : ∀ (l acc : List (Color × Nat)),
      acc.Pairwise (fun a b => b.2 ≤ a.2) →
      (l.foldl (fun acc x => insert_by_count x acc) acc).Pairwise (fun a b => b.2 ≤ a.2) := by
    intro l
    induction l with
    | nil => intro acc hacc; simpa using hacc
    | cons x tl ih =>
      intro acc hacc
      exact ih (insert_by_count x acc) (insert_by_count_sorted x acc hacc)
  exact key l [] (by simp)

/-- Total of the counts accumulated by the per-frame fold: the initial
total plus one per extracted color of every frame. -/
theorem frames_fold_sum (resize_height : Int) (s v : ℚ) (frames : List (List Color)) :
    ∀ m : List (Color × Nat),
      (((frames.foldl
            (fun m pixels =>
              (extract_colors_from_frame pixels resize_height s v).foldl bump m)
            m)).map (fun p => p.2)).sum
        = ((m.map (fun p => p.2)).sum)
            + (frames.map
                (fun frame => (extract_colors_from_frame frame resize_height s v).length)).sum := by
  induction frames with
  | nil => intro m; simp
  | cons f rest ih =>
    intro m
    simp only [List.foldl_cons, List.map_cons, List.sum_cons]
    rw [ih, foldl_bump_sum]
    omega

/-- C7: the sum of the counts in the ranking returned by
extract_color_ranking_from_video equals the total number of colors
emitted by extract_colors_from_frame over all processed frames. -/
theorem extract_color_ranking_sum_counts (reads : List ReadResult)
    (end_frame frame_number : Nat) (resize_height : Int) (s v : ℚ) :
    ((extract_color_ranking_from_video reads end_frame frame_number resize_height s v).map
        (fun p => p.2)).sum
      = ((run_frame_iterator reads end_frame frame_number).map
          (fun frame => (extract_colors_from_frame frame resize_height s v).length)).sum := by
  unfold extract_color_ranking_from_video
  have hperm := sort_by_count_descending_perm
    ((run_frame_iterator reads end_frame frame_number).foldl
      (fun m pixels =>
        (extract_colors_from_frame pixels resize_height s v).foldl bump m)
      [])
  rw [(hperm.map (fun p => p.2)).sum_eq]
  rw [frames_fold_sum]
  simp

/-- C8: the ranking is well-formed — no color appears twice, every count
is at least one, and counts are in descending order. -/
theorem extract_color_ranking_wellformed (reads : List ReadResult)
    (end_frame frame_number : Nat) (resize_height : Int) (s v : ℚ) :
    ((extract_color_ranking_from_video reads end_frame frame_number resize_height s v).map
        (fun p => p.1)).Nodup
      ∧ (∀ p ∈ extract_color_ranking_from_video reads end_frame frame_number resize_height s v,
          1 ≤ p.2)
      ∧ (extract_color_ranking_from_video reads end_frame frame_number
          resize_height s v).Pairwise (fun a b => b.2 ≤ a.2) := by
  unfold extract_color_ranking_from_video
  set counts := ((run_frame_iterator reads end_frame frame_number).foldl
    (fun m pixels =>
      (extract_colors_from_frame pixels resize_height s v).foldl bump m)
    []) with hcounts
  have hperm := sort_by_count_descending_perm counts
  have hnodup : (counts.map (fun p => p.1)).Nodup := by
    rw [hcounts]
    have key : ∀ (frames : List (List Color)) (m : List (Color × Nat)),
        (m.map (fun p => p.1)).Nodup →
        (((frames.foldl
            (fun m pixels =>
              (extract_colors_from_frame pixels resize_height s v).foldl bump m)
            m)).map (fun p => p.1)).Nodup := by
      intro frames
      induction frames with
      | nil => intro m h; simpa using h
      | cons f rest ih =>
        intro m h
        exact ih _ (foldl_bump_nodup _ m h)
    exact key _ [] (by simp)
  have hpos : ∀ p ∈ counts, 1 ≤ p.2 := by
    rw [hcounts]
    have key : ∀ (frames : List (List Color)) (m : List (Color × Nat)),
        (∀ p ∈ m, 1 ≤ p.2) →
        ∀ p ∈ frames.foldl
            (fun m pixels =>
              (extract_colors_from_frame pixels resize_height s v).foldl bump m)
            m, 1 ≤ p.2 := by
      intro frames
      induction frames with
      | nil => intro m h; simpa using h
      | cons f rest ih =>
        intro m h
        exact ih _ (foldl_bump_counts_pos _ m h)
    exact key _ [] (by simp)
  refine ⟨?_, ?_, sort_by_count_descending_sorted counts⟩
  · exact ((hperm.map (fun p => p.1)).nodup_iff).mpr hnodup
  · intro p hp
    exact hpos p (hperm.mem_iff.mp hp)

/-- Witness for C8 at a concrete two-frame video: applying the claim at
this input gives distinct keys, a concrete positive count, and the
descending order. -/
theorem extract_color_ranking_wellformed_witness :
    ((extract_color_ranking_from_video
        [.frame [pureRed, pureBlue, pureRed], .frame [pureBlue, pureRed]] 2 0 12 0 0).map
        (fun p => p.1)).Nodup
      ∧ 1 ≤ (pureRed, 3).2
      ∧ (extract_color_ranking_from_video
          [.frame [pureRed, pureBlue, pureRed], .frame [pureBlue, pureRed]] 2 0 12 0 0).Pairwise
          (fun a b => b.2 ≤ a.2) :=
  ⟨(extract_color_ranking_wellformed
      [.frame [pureRed, pureBlue, pureRed], .frame [pureBlue, pureRed]] 2 0 12 0 0).1,
    (extract_color_ranking_wellformed
      [.frame [pureRed, pureBlue, pureRed], .frame [pureBlue, pureRed]] 2 0 12 0 0).2.1
      (pureRed, 3) (by decide),
    (extract_color_ranking_wellformed
      [.frame [pureRed, pureBlue, pureRed], .frame [pureBlue, pureRed]] 2 0 12 0 0).2.2⟩

/-- Pushing onto a bucket does not change how many buckets there are. -/
theorem push_assignment_length (bs : List (List (Color × Nat))) (i : Nat)
    (x : Color × Nat) : (push_assignment bs i x).length = bs.length := by
  unfold push_assignment
  exact List.length_set ..

/-- A push at an out-of-range bucket index leaves the buckets unchanged
in the embedding (the Rust code panics there instead; the kmeans
contract hypotheses of the claims exclude it). -/
theorem push_assignment_oob (bs : List (List (Color × Nat))) (i : Nat)
    (x : Color × Nat) (hi : ¬ i < bs.length) : push_assignment bs i x = bs := by
  unfold push_assignment
  exact List.set_eq_of_length_le (by omega)

/-- A push at bucket i appends the pair to bucket i. -/
theorem push_assignment_getD_self (bs : List (List (Color × Nat))) (i : Nat)
    (x : Color × Nat) (hi : i < bs.length) :
    (push_assignment bs i x).getD i [] = bs.getD i [] ++ [x] := by
  induction bs generalizing i with
  | nil => simp at hi
  | cons b rest ih =>
    cases i with
    | zero => simp [push_assignment]
    | succ i' =>
      have hi' : i' < rest.length := by simpa using hi
      simp only [push_assignment, List.set_cons_succ, List.getD_cons_succ]
      exact ih i' hi'

/-- A push at bucket i leaves every other bucket unchanged. -/
theorem push_assignment_getD_ne (bs : List (List (Color × Nat))) (i j : Nat)
    (x : Color × Nat) (hij : j ≠ i) :
    (push_assignment bs i x).getD j [] = bs.getD j [] := by
  induction bs generalizing i j with
  | nil => simp [push_assignment]
  | cons b rest ih =>
    cases i with
    | zero =>
      cases j with
      | zero => exact absurd rfl hij
      | succ j' => simp [push_assignment]
    | succ i' =>
      cases j with
      | zero => simp [push_assignment]
      | succ j' =>
        simp only [push_assignment, List.set_cons_succ, List.getD_cons_succ]
        exact ih i' j' (by omega)

/-- Flattened buckets after a push: the pushed pair joins the flattened
buckets, up to permutation. -/
theorem push_assignment_flatten_perm (bs : List (List (Color × Nat))) (i : Nat)
    (x : Color × Nat) (hi : i < bs.length) :
    List.Perm (push_assignment bs i x).flatten (bs.flatten ++ [x]) := by
  induction bs generalizing i with
  | nil => simp at hi
  | cons b rest ih =>
    cases i with
    | zero =>
      simp only [push_assignment, List.getD_cons_zero, List.set_cons_zero,
        List.flatten_cons]
      rw [List.append_assoc, List.append_assoc]
      exact List.Perm.append_left b List.perm_append_comm
    | succ i' =>
      have hi' : i' < rest.length := by simpa using hi
      simp only [push_assignment, List.set_cons_succ, List.getD_cons_succ,
        List.flatten_cons]
      rw [List.append_assoc]
      exact List.Perm.append_left b (ih i' hi')

/-- The assignment loop never changes the number of buckets. -/
theorem assign_loop_length (color_ranking : List (Color × Nat)) :
    ∀ (asg : List Nat) (bs : List (List (Color × Nat))),
      (assign_loop color_ranking asg bs).length = bs.length := by
  induction color_ranking with
  | nil => intro asg bs; simp [assign_loop]
  | cons p rest ih =>
    intro asg bs
    obtain ⟨c, n⟩ := p
    cases asg with
    | nil => simp only [assign_loop]; exact ih [] bs
    | cons i irest =>
      simp only [assign_loop]
      rw [ih irest _, push_assignment_length]

/-- With an exhausted assignment sequence the loop changes nothing. -/
theorem assign_loop_nil_asg (color_ranking : List (Color × Nat)) :
    ∀ bs : List (List (Color × Nat)), assign_loop color_ranking [] bs = bs := by
  induction color_ranking with
  | nil => intro bs; simp [assign_loop]
  | cons p rest ih =>
    intro bs
    obtain ⟨c, n⟩ := p
    simp only [assign_loop]
    exact ih bs

/-- When the assignment sequence covers the ranking and stays below the
bucket count, the loop distributes every pair into exactly one bucket:
the flattened buckets are a permutation of the initial flattened buckets
followed by the whole ranking. -/
theorem assign_loop_flatten_perm (color_ranking : List (Color × Nat)) :
    ∀ (asg : List Nat) (bs : List (List (Color × Nat))),
      color_ranking.length ≤ asg.length →
      (∀ i ∈ asg, i < bs.length) →
      List.Perm (assign_loop color_ranking asg bs).flatten
        (bs.flatten ++ color_ranking) := by
  induction color_ranking with
  | nil => intro asg bs _ _; simp [assign_loop]
  | cons p rest ih =>
    intro asg bs hlen hbound
    obtain ⟨c, n⟩ := p
    cases asg with
    | nil => simp at hlen
    | cons i irest =>
      simp only [assign_loop]
      have hi : i < bs.length := hbound i (by simp)
      have hlen' : rest.length ≤ irest.length := by simpa using hlen
      have hbound' : ∀ j ∈ irest, j < (push_assignment bs i (c, n)).length := by
        intro j hj
        rw [push_assignment_length]
        exact hbound j (by simp [hj])
      refine (ih irest _ hlen' hbound').trans ?_
      refine ((push_assignment_flatten_perm bs i (c, n) hi).append_right rest).trans ?_
      rw [List.append_assoc]
      simp

/-- A flat centroid buffer of exactly num_clusters three-channel chunks
yields exactly num_clusters chunks. -/
theorem chunks3_length (num_clusters : Nat) :
    ∀ l : List ℚ, l.length = 3 * num_clusters → (chunks3 l).length = num_clusters := by
  induction num_clusters with
  | zero =>
    intro l h
    have : l = [] := List.length_eq_zero.mp (by omega)
    subst this
    simp [chunks3]
  | succ k ih =>
    intro l h
    rcases l with _ | ⟨a, _ | ⟨b, _ | ⟨c, rest⟩⟩⟩
    · simp only [List.length_nil] at h; omega
    · simp only [List.length_cons, List.length_nil] at h; omega
    · simp only [List.length_cons, List.length_nil] at h; omega
    · simp only [chunks3, List.length_cons]
      rw [ih rest (by simp only [List.length_cons] at h; omega)]

/-- Reading the assignment lists back off the zipped ColorCluster values
returns the buckets, when there are as many centroids as buckets. -/
theorem zipWith_mk_assignments :
    ∀ (cents : List Color) (bs : List (List (Color × Nat))),
      cents.length = bs.length →
      (List.zipWith (fun cen b => ColorCluster.mk cen b) cents bs).map
          (fun cl => cl.assignments) = bs := by
  intro cents
  induction cents with
  | nil =>
    intro bs h
    cases bs with
    | nil => simp
    | cons b bt => simp at h
  | cons ce ct ih =>
    intro bs h
    cases bs with
    | nil => simp at h
    | cons b bt =>
      simp only [List.zipWith_cons_cons, List.map_cons]
      rw [ih bt (by simpa using h)]

/-- Every ranking whose counts are all at least one has at least as many
weighted samples as distinct pairs. -/
theorem length_le_total_samples (color_ranking : List (Color × Nat))
    (h : ∀ p ∈ color_ranking, 1 ≤ p.2) :
    color_ranking.length ≤ total_samples color_ranking := by
  induction color_ranking with
  | nil => simp [total_samples]
  | cons p rest ih =>
    have hp : 1 ≤ p.2 := h p (by simp)
    have hrest := ih (fun q hq => h q (List.mem_cons_of_mem _ hq))
    simp only [total_samples, List.map_cons, List.sum_cons, List.length_cons]
    simp only [total_samples] at hrest
    omega

/-- Flattening empty buckets gives the empty list. -/
theorem flatten_replicate_nil (k : Nat) :
    (List.replicate k ([] : List (Color × Nat))).flatten = [] := by
  induction k with
  | zero => rfl
  | succ n ih => simp [List.replicate, ih]

/-- C1: for every input ranking (counts at least one, as the
FrequencyRanking invariant guarantees) and any number of clusters at
least one, under the kmeans contract (one assignment per weighted
sample, each assignment below the cluster count, one three-channel
centroid per cluster) the union of the assignment lists of the returned
ColorClusters is a permutation of the input ranking: every pair lands in
exactly one cluster, none is dropped and none duplicated. -/
theorem create_color_clusters_partition (color_ranking : List (Color × Nat))
    (num_clusters : Nat) (kmAssignments : List Nat) (kmCentroids : List ℚ)
    (_hk : 1 ≤ num_clusters)
    (hpos : ∀ p ∈ color_ranking, 1 ≤ p.2)
    (hlen : kmAssignments.length = total_samples color_ranking)
    (hbound : ∀ i ∈ kmAssignments, i < num_clusters)
    (hcents : kmCentroids.length = 3 * num_clusters) :
    List.Perm
      ((create_color_clusters color_ranking num_clusters kmAssignments
          kmCentroids).flatMap (fun cl => cl.assignments))
      color_ranking := by
  unfold create_color_clusters
  have hbucklen :
      (assign_loop color_ranking kmAssignments
        (List.replicate num_clusters ([] : List (Color × Nat)))).length = num_clusters := by
    rw [assign_loop_length]
    simp
  have hcentlen :
      ((chunks3 kmCentroids).map centroid_of_chunk).length = num_clusters := by
    rw [List.length_map]
    exact chunks3_length num_clusters kmCentroids hcents
  rw [List.flatMap_def]
  rw [zipWith_mk_assignments _ _ (by rw [hcentlen, hbucklen])]
  have hlen2 : color_ranking.length ≤ kmAssignments.length := by
    rw [hlen]
    exact length_le_total_samples color_ranking hpos
  have hbound2 : ∀ i ∈ kmAssignments,
      i < (List.replicate num_clusters ([] : List (Color × Nat))).length := by
    intro i hi
    simpa using hbound i hi
  have hperm := assign_loop_flatten_perm color_ranking kmAssignments
    (List.replicate num_clusters ([] : List (Color × Nat))) hlen2 hbound2
  rw [flatten_replicate_nil] at hperm
  simpa using hperm

/-- Witness for C1 at the specification's two-color ranking with two
clusters and the kmeans contract satisfied concretely. -/
theorem create_color_clusters_partition_witness :
    (1 ≤ 2)
      ∧ (∀ p ∈ [(pureRed, 2), (pureBlue, 1)], 1 ≤ p.2)
      ∧ ([0, 0, 1].length = total_samples [(pureRed, 2), (pureBlue, 1)])
      ∧ (∀ i ∈ [0, 0, 1], i < 2)
      ∧ (([1, 0, 0, 0, 0, 1] : List ℚ).length = 3 * 2)
      ∧ List.Perm
          ((create_color_clusters [(pureRed, 2), (pureBlue, 1)] 2 [0, 0, 1]
              [1, 0, 0, 0, 0, 1]).flatMap (fun cl => cl.assignments))
          [(pureRed, 2), (pureBlue, 1)] :=
  ⟨by decide, by decide, by decide, by decide, by decide,
    create_color_clusters_partition [(pureRed, 2), (pureBlue, 1)] 2 [0, 0, 1]
      [1, 0, 0, 0, 0, 1] (by decide) (by decide) (by decide) (by decide) (by decide)⟩

/-- Each bucket after the assignment loop is its initial content
followed by a subsequence of the ranking: pairs enter a bucket in
ranking order. -/
theorem assign_loop_getD_sublist (color_ranking : List (Color × Nat)) :
    ∀ (asg : List Nat) (bs : List (List (Color × Nat))) (j : Nat),
      ∃ t, t.Sublist color_ranking
        ∧ (assign_loop color_ranking asg bs).getD j []
            = bs.getD j [] ++ t := by
  induction color_ranking with
  | nil =>
    intro asg bs j
    exact ⟨[], List.nil_sublist _, by simp [assign_loop]⟩
  | cons p rest ih =>
    intro asg bs j
    obtain ⟨c, n⟩ := p
    cases asg with
    | nil =>
      refine ⟨[], List.nil_sublist _, ?_⟩
      simp only [assign_loop]
      rw [assign_loop_nil_asg]
      simp
    | cons i irest =>
      simp only [assign_loop]
      obtain ⟨t, hsub, heq⟩ := ih irest (push_assignment bs i (c, n)) j
      by_cases hij : j = i
      · subst hij
        by_cases hj : j < bs.length
        · refine ⟨(c, n) :: t, hsub.cons₂ (c, n), ?_⟩
          rw [heq, push_assignment_getD_self bs j (c, n) hj]
          simp [List.append_assoc]
        · refine ⟨t, hsub.cons (c, n), ?_⟩
          rw [heq, push_assignment_oob bs j (c, n) hj]
      · refine ⟨t, hsub.cons (c, n), ?_⟩
        rw [heq, push_assignment_getD_ne bs i j (c, n) hij]

/-- The assignment list of every produced cluster is one of the
buckets. -/
theorem mem_zipWith_mk_assignments :
    ∀ (cents : List Color) (bs : List (List (Color × Nat)))
      (cl : ColorCluster),
      cl ∈ List.zipWith (fun cen b => ColorCluster.mk cen b) cents bs →
      cl.assignments ∈ bs := by
  intro cents
  induction cents with
  | nil => intro bs cl h; simp at h
  | cons ce ct ih =>
    intro bs cl h
    cases bs with
    | nil => simp at h
    | cons b bt =>
      rcases List.mem_cons.mp h with hcl | hcl
      · subst hcl
        simp
      · exact List.mem_cons_of_mem _ (ih bt cl hcl)

/-- Every bucket starts out empty. -/
theorem getD_replicate_nil (k j : Nat) :
    (List.replicate k ([] : List (Color × Nat))).getD j [] = [] := by
  induction k generalizing j with
  | zero => simp
  | succ n ih =>
    cases j with
    | zero => simp [List.replicate]
    | succ j' => simp only [List.replicate, List.getD_cons_succ]; exact ih j'

/-- C10: under the kmeans contract on assignment indices, the
assignment list of every ColorCluster returned by create_color_clusters
is a subsequence of the input ranking — within one cluster the pairs
keep their relative input order. -/
theorem create_color_clusters_sublist (color_ranking : List (Color × Nat))
    (num_clusters : Nat) (kmAssignments : List Nat) (kmCentroids : List ℚ)
    (_hbound : ∀ i ∈ kmAssignments, i < num_clusters) :
    ∀ cl ∈ create_color_clusters color_ranking num_clusters kmAssignments kmCentroids,
      cl.assignments.Sublist color_ranking := by
  intro cl hcl
  unfold create_color_clusters at hcl
  have hmem : cl.assignments
      ∈ assign_loop color_ranking kmAssignments
          (List.replicate num_clusters ([] : List (Color × Nat))) :=
    mem_zipWith_mk_assignments _ _ cl hcl
  obtain ⟨j, hj, hget⟩ := List.mem_iff_getElem.mp hmem
  obtain ⟨t, hsub, heq⟩ := assign_loop_getD_sublist color_ranking kmAssignments
    (List.replicate num_clusters ([] : List (Color × Nat))) j
  rw [getD_replicate_nil] at heq
  have hget' : (assign_loop color_ranking kmAssignments
      (List.replicate num_clusters ([] : List (Color × Nat)))).getD j []
        = cl.assignments := by
    rw [List.getD_eq_getElem _ _ hj]
    exact hget
  rw [hget'] at heq
  simp only [List.nil_append] at heq
  rw [heq]
  exact hsub

/-- Witness for C10 at a concrete ranking: the first cluster's
assignment list is a subsequence of the input ranking. -/
theorem create_color_clusters_sublist_witness :
    (∀ i ∈ [0, 0, 1], i < 2)
      ∧ List.Sublist [(pureRed, 2), (pureBlue, 1)] [(pureRed, 2), (pureBlue, 1)] :=
  ⟨by decide,
    create_color_clusters_sublist [(pureRed, 2), (pureBlue, 1)] 2 [0, 0, 1]
      [1, 0, 0, 0, 0, 1] (by decide)
      (ColorCluster.mk pureRed [(pureRed, 2), (pureBlue, 1)]) (by decide)⟩

/-- C2 evaluation at the failing input: the sample buffer for the
ranking [(red, 2), (blue, 1)] is red's representation twice followed by
blue's once, so with kmeans assigning the two red samples to cluster 0
and blue's own (third) sample to cluster 1, mapping samples back to
their originating colors would put blue in cluster 1.  The code instead
consumes one per-sample assignment per distinct color, so blue receives
the second entry — the assignment of red's repeated sample — and lands
in cluster 0, leaving cluster 1 empty. -/
theorem create_color_clusters_misaligned_mapping :
    (create_color_clusters [(pureRed, 2), (pureBlue, 1)] 2 [0, 0, 1]
        [1, 0, 0, 0, 0, 1]).map (fun cl => cl.assignments)
      = [[(pureRed, 2), (pureBlue, 1)], []]
    ∧ kmeans_data [(pureRed, 2), (pureBlue, 1)]
      = color_to_f64 pureRed ++ color_to_f64 pureRed ++ color_to_f64 pureBlue := by
  constructor
  · decide
  · rfl

/-- C3 evaluation at the empty ranking: create_color_clusters has no
error path at all — its return type is a plain Vec of clusters — and,
taking the kmeans result on zero samples to be empty assignments with
the requested centroids, it returns num_clusters clusters with empty
assignment lists rather than any EmptyInputError (the kmeans crate
itself may panic on zero samples; either way no documented error value
exists). -/
theorem create_color_clusters_empty_input :
    create_color_clusters [] 5 [] (List.replicate 15 0)
      = List.replicate 5 (ColorCluster.mk (Color.mk 0 0 0) []) := by
  decide

/-- C4 evaluation at a mid-stream decode failure: with three frames
expected and capture.read failing on the second, the iterator simply
ends and extract_color_ranking_from_video returns the ranking of the
first frame alone as a successful result — a partial ranking, not an
error. -/
theorem extract_color_ranking_partial_on_decode_failure :
    extract_color_ranking_from_video
        [ReadResult.frame [pureRed], ReadResult.failure, ReadResult.frame [pureBlue]]
        3 0 12 0 0
      = [(pureRed, 1)] := by
  decide

/-- C9 evaluation at a degenerate configuration: with color_clusters
set to zero, main's pipeline still opens the video, processes its frame
and produces a ranking — no InvalidConfiguration rejection happens
before (or after) frame processing; the cluster list simply comes back
empty. -/
theorem main_pipeline_accepts_zero_clusters :
    main_pipeline [ReadResult.frame [pureRed]] 1 0 12 0 0 0 [] []
      = ([(pureRed, 1)], []) := by
  decide
